import Mathlib

/-!
Verification of the URL-normalization, link-filtering and deduplication core of
the gmail-scholar-summary repository.

URLs are modelled as `List Char` (Python `str`).  The embedding follows the
source files `src/fetchers/url_processors.py`, `src/link_filters.py` and
`main.py`.  Python standard-library behaviour that the source relies on
(`urllib.parse.urlparse`, `parse_qs`, `unquote`, `str.split`, `re.search` on
the concrete patterns appearing in the source, `re.findall` of the URL
pattern, `str.rstrip`) is embedded explicitly below.  Two documented
simplifications: `unquote` decodes each `%XX` escape to the single code point
`XX` (faithful to CPython for ASCII escapes; multi-byte UTF-8 sequences are
not reconstructed), and character classes such as `\d`, `\s` and `str.lower`
use their ASCII meaning (all pattern literals in the source are ASCII).
-/

set_option maxRecDepth 100000

namespace GmailScholar

/-- Characters of a string literal, as the model of a Python `str` value. -/
def strL (s : String) : List Char := s.data

/-- Boolean prefix test on character lists (`Python: s.startswith(p)` /
the anchored part of a regex literal). -/
def isPre : List Char → List Char → Bool
  | [], _ => true
  | _ :: _, [] => false
  | a :: p, b :: s => a == b && isPre p s

/-- Boolean substring test on character lists (Python `pat in s`,
or `re.search` of a literal pattern). -/
def containsL (pat : List Char) : List Char → Bool
  | [] => pat.isEmpty
  | c :: rest => isPre pat (c :: rest) || containsL pat rest

/-- Python `s.lower()` (ASCII case mapping). -/
def lowerL (s : List Char) : List Char := s.map Char.toLower

/-- Python `s.split(sep)` for a one-character separator. -/
def splitOnChar (sep : Char) : List Char → List (List Char)
  | [] => [[]]
  | c :: rest =>
    let r := splitOnChar sep rest
    if c == sep then [] :: r
    else
      match r with
      | h :: t => (c :: h) :: t
      | [] => [[c]]

/-- Python `s.split(sep, 1)` when `sep` occurs: the pieces before and after
the first occurrence; `none` when `sep` does not occur. -/
def splitFirst (sep : Char) : List Char → Option (List Char × List Char)
  | [] => none
  | c :: rest =>
    if c == sep then some ([], rest)
    else
      match splitFirst sep rest with
      | some (n, v) => some (c :: n, v)
      | none => none

/-- Value of a hexadecimal digit character (0-9/a-f/A-F by code point), as
accepted by `urllib.parse.unquote`. -/
def hexVal (c : Char) : Option Nat :=
  let n := c.toNat
  if 48 ≤ n && n ≤ 57 then some (n - 48)
  else if 97 ≤ n && n ≤ 102 then some (n - 87)
  else if 65 ≤ n && n ≤ 70 then some (n - 55)
  else none

/-- Python `urllib.parse.unquote`: decode `%XX` escapes, leaving invalid
escapes in place.  Each valid escape becomes the code point `XX` (exact for
ASCII escapes; multi-byte UTF-8 escape runs are not recombined). -/
def unquote : List Char → List Char
  | [] => []
  | '%' :: a :: b :: rest =>
    match hexVal a, hexVal b with
    | some x, some y => Char.ofNat (16 * x + y) :: unquote rest
    | _, _ => '%' :: unquote (a :: b :: rest)
  | c :: rest => c :: unquote rest

/-- Python `s.replace("+", " ")`, applied by `parse_qsl` to names and values. -/
def plusToSpace (s : List Char) : List Char :=
  s.map fun c => if c == '+' then ' ' else c

/-- The query component returned by `urllib.parse.urlparse`: strip leading
C0-control/space characters, remove tab/CR/LF anywhere, drop everything from
the first `#` on, and take what follows the first `?` (empty when there is
no `?`).  (`urlsplit`'s IPv6-bracket validation of the netloc is not
modelled.) -/
def urlQuery (s : List Char) : List Char :=
  let s1 := (s.dropWhile fun c => c.toNat ≤ 32).filter
    fun c => !(c == '\t' || c == '\r' || c == '\n')
  let s2 := s1.takeWhile fun c => c != '#'
  match splitFirst '?' s2 with
  | some (_, q) => q
  | none => []

/-- Python `urllib.parse.parse_qsl(query)` with default arguments: split the
query on `&`; keep only chunks with an `=` and a non-empty value; names and
values get `+`→space then percent-decoding. -/
def parse_qsl (query : List Char) : List (List Char × List Char) :=
  (splitOnChar '&' query).filterMap fun chunk =>
    match splitFirst '=' chunk with
    | none => none
    | some (n, v) =>
      if v.isEmpty then none
      else some (unquote (plusToSpace n), unquote (plusToSpace v))

/-- A URL processor: `can_process` plus `process`
(`url_processors.URLProcessor`). -/
structure URLProcessor where
  can_process : List Char → Bool
  process : List Char → List Char

/-- `GoogleScholarProcessor.can_process`:
`"scholar.google.com/scholar_url" in url`. -/
def gsCanProcess (url : List Char) : Bool :=
  containsL (strL "scholar.google.com/scholar_url") url

/-- `GoogleScholarProcessor.process`: take the first `url` query parameter of
the parsed URL, percent-decode it (a second time, after `parse_qs` already
decoded once) and return it; if there is no such parameter, return the input
unchanged. -/
def gsProcess (url : List Char) : List Char :=
  match (parse_qsl (urlQuery url)).find? (fun p => p.1 == strL "url") with
  | some p => unquote p.2
  | none => url

/-- `GoogleScholarProcessor` instance. -/
def googleScholarProcessor : URLProcessor :=
  ⟨gsCanProcess, gsProcess⟩

/-- `ArxivProcessor.can_process`: `"arxiv.org" in url.lower()`. -/
def arxivCanProcess (url : List Char) : Bool :=
  containsL (strL "arxiv.org") (lowerL url)

/-- Attempted match of `ARXIV_ID_PATTERN = r"(\d{4}\.\d{4,5})"` anchored at
the start of `s`: four digits, a dot, then greedily five or four digits. -/
def matchArxivAt (s : List Char) : Option (List Char) :=
  match s with
  | a :: b :: c :: d :: e :: rest =>
    if (a.isDigit && b.isDigit && c.isDigit && d.isDigit) && e == '.' then
      match rest with
      | f :: g :: h :: i :: t =>
        if f.isDigit && g.isDigit && h.isDigit && i.isDigit then
          match t with
          | j :: _ =>
            if j.isDigit then some [a, b, c, d, e, f, g, h, i, j]
            else some [a, b, c, d, e, f, g, h, i]
          | [] => some [a, b, c, d, e, f, g, h, i]
        else none
      | _ => none
    else none
  | _ => none

/-- `re.search` of `ARXIV_ID_PATTERN`: leftmost match wins. -/
def arxivSearch : List Char → Option (List Char)
  | [] => none
  | c :: rest =>
    match matchArxivAt (c :: rest) with
    | some m => some m
    | none => arxivSearch rest

/-- The literal `"https://arxiv.org/abs/"` used to rebuild the canonical URL. -/
def absUrlBase : List Char := strL "https://arxiv.org/abs/"

/-- `ArxivProcessor.process`: search for the arXiv identifier anywhere in the
URL; on a match rebuild `https://arxiv.org/abs/<id>`, otherwise return the
input unchanged. -/
def arxivProcess (url : List Char) : List Char :=
  match arxivSearch url with
  | none => url
  | some id => absUrlBase ++ id

/-- `ArxivProcessor` instance. -/
def arxivProcessor : URLProcessor :=
  ⟨arxivCanProcess, arxivProcess⟩

/-- One step of `URLProcessorChain.process`: apply the processor to the
current URL only when its applicability test passes. -/
def applyProcessor (cur : List Char) (p : URLProcessor) : List Char :=
  if p.can_process cur then p.process cur else cur

/-- `URLProcessorChain.process`: fold the processors, in order, over the URL. -/
def chainProcess (ps : List URLProcessor) (url : List Char) : List Char :=
  ps.foldl applyProcessor url

/-- `default_processor_chain`: Google Scholar unwrapping, then arXiv
canonicalization. -/
def default_processor_chain : List URLProcessor :=
  [googleScholarProcessor, arxivProcessor]

/-- `process_paper_url`: run the default chain. -/
def process_paper_url (url : String) : String :=
  ⟨chainProcess default_processor_chain url.data⟩

/-- `NonPaperLinkFilter.NON_PAPER_PATTERNS`, each regex embedded as a matcher
on the lowercased URL (`re.search(pattern, url, re.IGNORECASE)`; every
pattern literal is lowercase ASCII).  `scholar\.google\.com/schol[?&]` is the
character class `[?&]` after the literal `scholar.google.com/schol`, hence
containment of one of the two expanded literals. -/
def NON_PAPER_PATTERNS : List (List Char → Bool) :=
  [ fun l => containsL (strL "scholar.google.com/citations") l,
    fun l => containsL (strL "update_op=") l,
    fun l => containsL (strL "citsig=") l,
    fun l => containsL (strL "info=") l,
    fun l => containsL (strL "scholar.google.com/schol?") l
      || containsL (strL "scholar.google.com/schol&") l,
    fun l => containsL (strL "scholar.google.com/scholar_settings") l,
    fun l => containsL (strL "scholar.google.com/citations?") l ]

/-- `NonPaperLinkFilter.PAPER_INDICATORS`: `scholar_url` and
`arxiv\.org/(abs|pdf)/` (alternation expanded). -/
def PAPER_INDICATORS : List (List Char → Bool) :=
  [ fun l => containsL (strL "scholar_url") l,
    fun l => containsL (strL "arxiv.org/abs/") l
      || containsL (strL "arxiv.org/pdf/") l ]

/-- `NonPaperLinkFilter.should_keep`: reject on any exclusion pattern, else
accept on any inclusion pattern, else reject. -/
def should_keep (url : List Char) : Bool :=
  let l := lowerL url
  if NON_PAPER_PATTERNS.any fun p => p l then false
  else PAPER_INDICATORS.any fun p => p l

/-- Stop characters of `LinkExtractor.URL_PATTERN`'s character class
`[^\s<>"{}|\^`\[\]]` (the excluded characters, by code point, plus
whitespace). -/
def isUrlStop (c : Char) : Bool :=
  c.isWhitespace || [60, 62, 34, 123, 125, 124, 92, 94, 96, 91, 93].contains c.toNat

/-- Attempted match of `URL_PATTERN = r"https?://[^\s<>\"{}|\\^`\[\]]+"` at
the start of the text: scheme, then a non-empty maximal run of allowed
characters.  Returns the match and the remaining text after it. -/
def matchUrlAt (s : List Char) : Option (List Char × List Char) :=
  if isPre (strL "https://") s then
    let rest0 := s.drop 8
    let run := rest0.takeWhile fun c => !isUrlStop c
    if run.isEmpty then none else some (strL "https://" ++ run, rest0.drop run.length)
  else if isPre (strL "http://") s then
    let rest0 := s.drop 7
    let run := rest0.takeWhile fun c => !isUrlStop c
    if run.isEmpty then none else some (strL "http://" ++ run, rest0.drop run.length)
  else none

/-- `re.findall(URL_PATTERN, text)` driven by explicit fuel (one unit per
consumed character, so `text.length` always suffices): try a match at each
position; on success continue after the match, otherwise advance one
character. -/
def findUrlsGo : Nat → List Char → List (List Char)
  | 0, _ => []
  | _ + 1, [] => []
  | n + 1, c :: rest =>
    match matchUrlAt (c :: rest) with
    | some (m, rem) => m :: findUrlsGo n rem
    | none => findUrlsGo n rest

/-- All URL-pattern matches of a text, leftmost first. -/
def findUrls (s : List Char) : List (List Char) :=
  findUrlsGo s.length s

/-- The trailing punctuation stripped by `url.rstrip(".,;:!?)")`. -/
def isStripPunct (c : Char) : Bool :=
  c == '.' || c == ',' || c == ';' || c == ':' || c == '!' || c == '?' || c == ')'

/-- Python `url.rstrip(".,;:!?)")`. -/
def rstripPunct (s : List Char) : List Char :=
  (s.reverse.dropWhile isStripPunct).reverse

/-- First-seen deduplication with an explicit seen-accumulator; models the
`cleaned_urls` set of `LinkExtractor.extract_links` (a Python set holds each
cleaned URL once; its iteration order is not specified by Python, modelled
here as insertion order — the claims proved below do not depend on it). -/
def dedupSeen (seen : List (List Char)) : List (List Char) → List (List Char)
  | [] => []
  | x :: xs =>
    if seen.contains x then dedupSeen seen xs
    else x :: dedupSeen (x :: seen) xs

/-- The extractor's configured filter list: the default is the single
`NonPaperLinkFilter`. -/
def defaultFilters : List (List Char → Bool) := [should_keep]

/-- `LinkExtractor.extract_links`: find URL matches, strip trailing
punctuation, deduplicate, keep only URLs accepted by every filter. -/
def extract_links (text : List Char) : List (List Char) :=
  (dedupSeen [] ((findUrls text).map rstripPunct)).filter
    fun u => defaultFilters.all fun f => f u

/-- `extract_paper_links`: run the default extractor. -/
def extract_paper_links (text : String) : List String :=
  (extract_links text.data).map fun l => ⟨l⟩

/-- An email, reduced to the field `main.get_unique_links` reads:
`email.get("links", [])`. -/
structure Email where
  links : List (List Char)

/-- One step of the loop body of `main.get_unique_links`: normalize the link,
then append it only if the normalized form is unseen.  The state is
`(seen, output)`. -/
def uniqueStep (acc : List (List Char) × List (List Char)) (link : List Char) :
    List (List Char) × List (List Char) :=
  let processed := chainProcess default_processor_chain link
  if acc.1.contains processed then acc
  else (processed :: acc.1, acc.2 ++ [processed])

/-- `main.get_unique_links`: iterate emails in list order and links in
per-email order, normalize first, deduplicate on the normalized URL,
first-seen order preserved. -/
def get_unique_links (emails : List Email) : List (List Char) :=
  (emails.foldl (fun acc email => email.links.foldl uniqueStep acc) ([], [])).2

/-- Specification-level first-occurrence deduplication: keep each element's
first occurrence, delete the later ones. -/
def dedupFirst : List (List Char) → List (List Char)
  | [] => []
  | x :: xs => x :: dedupFirst (xs.filter fun y => !(y == x))
termination_by l => l.length
decreasing_by
  simp only [List.length_cons]
  exact Nat.lt_succ_of_le (List.length_filter_le _ _)

/-- Spec-side reading of the exclusion stage: the URL (case-insensitively)
matches some exclusion pattern. -/
def matchesAnyNonPaperPattern (url : List Char) : Bool :=
  NON_PAPER_PATTERNS.any fun p => p (lowerL url)

/-- Spec-side reading of the inclusion stage: the URL (case-insensitively)
matches some inclusion pattern. -/
def matchesAnyPaperIndicator (url : List Char) : Bool :=
  PAPER_INDICATORS.any fun p => p (lowerL url)

/-- All links of a list of emails, emails in list order, links in per-email
order. -/
def allLinks : List Email → List (List Char)
  | [] => []
  | e :: es => e.links ++ allLinks es

/-! Helper lemmas about the list-level primitives. -/

theorem andT {a b : Bool} (h : (a && b) = true) : a = true ∧ b = true :=
  Bool.and_eq_true a b ▸ h

theorem orT {a b : Bool} (h : (a || b) = true) : a = true ∨ b = true :=
  Bool.or_eq_true a b ▸ h

theorem isPre_append {p s : List Char} (h : isPre p s = true) (t : List Char) :
    isPre p (s ++ t) = true := by
  induction p generalizing s with
  | nil => rfl
  | cons a p ih =>
    cases s with
    | nil => simp [isPre] at h
    | cons b s =>
      rw [isPre] at h
      rcases andT h with ⟨hab, hps⟩
      rw [List.cons_append, isPre, hab, ih hps, Bool.and_self]

theorem isPre_length_le {p s : List Char} (h : isPre p s = true) :
    p.length ≤ s.length := by
  induction p generalizing s with
  | nil => simp
  | cons a p ih =>
    cases s with
    | nil => simp [isPre] at h
    | cons b s =>
      rw [isPre] at h
      rcases andT h with ⟨_, hps⟩
      simpa using ih hps

theorem isPre_eq_append {p s : List Char} (h : isPre p s = true) :
    p ++ s.drop p.length = s := by
  induction p generalizing s with
  | nil => rfl
  | cons a p ih =>
    cases s with
    | nil => simp [isPre] at h
    | cons b s =>
      rw [isPre] at h
      rcases andT h with ⟨hab, hps⟩
      have := eq_of_beq hab
      subst this
      simpa using ih hps

theorem isPre_map {p s : List Char} (f : Char → Char) (h : isPre p s = true) :
    isPre (p.map f) (s.map f) = true := by
  induction p generalizing s with
  | nil => rfl
  | cons a p ih =>
    cases s with
    | nil => simp [isPre] at h
    | cons b s =>
      rw [isPre] at h
      rcases andT h with ⟨hab, hps⟩
      have := eq_of_beq hab
      subst this
      rw [List.map_cons, List.map_cons, isPre, ih hps, beq_self_eq_true, Bool.and_self]

theorem containsL_map {p s : List Char} (f : Char → Char) (h : containsL p s = true) :
    containsL (p.map f) (s.map f) = true := by
  induction s with
  | nil =>
    rw [containsL] at h
    rw [List.isEmpty_iff] at h
    subst h
    rfl
  | cons c rest ih =>
    rw [containsL] at h
    rcases orT h with h | h
    · have h2 := isPre_map f h
      rw [List.map_cons] at h2
      rw [List.map_cons, containsL, h2, Bool.true_or]
    · rw [List.map_cons, containsL, ih h, Bool.or_true]

theorem containsL_append_left {p a : List Char} (h : containsL p a = true) (b : List Char) :
    containsL p (a ++ b) = true := by
  induction a with
  | nil =>
    rw [containsL] at h
    rw [List.isEmpty_iff] at h
    subst h
    cases b with
    | nil => rfl
    | cons c t => rw [List.nil_append, containsL]; rfl
  | cons c rest ih =>
    rw [containsL] at h
    rcases orT h with h | h
    · have h2 := isPre_append h b
      rw [List.cons_append] at h2
      rw [List.cons_append, containsL, h2, Bool.true_or]
    · rw [List.cons_append, containsL, ih h, Bool.or_true]

/-! Lemmas about the arXiv identifier matcher. -/

theorem matchArxivAt_fix {s m : List Char} (h : matchArxivAt s = some m) :
    matchArxivAt m = some m := by
  unfold matchArxivAt at h
  split at h
  case h_2 => exact absurd h (by simp)
  case h_1 a b c d e rest =>
    split at h
    case isFalse => exact absurd h (by simp)
    case isTrue hcond =>
      rcases andT hcond with ⟨hdig, hdot⟩
      rcases andT hdig with ⟨hd3, hd⟩
      rcases andT hd3 with ⟨hd2, hc⟩
      rcases andT hd2 with ⟨ha, hb⟩
      split at h
      case h_2 => exact absurd h (by simp)
      case h_1 f g h' i t =>
        split at h
        case isFalse => exact absurd h (by simp)
        case isTrue hcond2 =>
          rcases andT hcond2 with ⟨hfg, hi⟩
          rcases andT hfg with ⟨hfg2, hh⟩
          rcases andT hfg2 with ⟨hf, hg⟩
          split at h
          case h_2 =>
            rw [Option.some_inj] at h
            subst h
            simp [matchArxivAt, ha, hb, hc, hd, hdot, hf, hg, hh, hi]
          case h_1 j t2 =>
            split at h
            · rw [Option.some_inj] at h
              subst h
              simp_all [matchArxivAt]
            · rw [Option.some_inj] at h
              subst h
              simp [matchArxivAt, ha, hb, hc, hd, hdot, hf, hg, hh, hi]

theorem arxivSearch_fix : ∀ {s m : List Char}, arxivSearch s = some m →
    matchArxivAt m = some m := by
  intro s
  induction s with
  | nil => intro m h; exact absurd h (by simp [arxivSearch])
  | cons c rest ih =>
    intro m h
    rw [arxivSearch] at h
    split at h
    · rw [Option.some_inj] at h
      subst h
      exact matchArxivAt_fix (by assumption)
    · exact ih h

theorem arxivSearch_self {m : List Char} (h : matchArxivAt m = some m) :
    arxivSearch m = some m := by
  cases m with
  | nil => exact absurd h (by simp [matchArxivAt])
  | cons c rest => rw [arxivSearch, h]

theorem matchArxivAt_not_digit {c : Char} (t : List Char) (hc : c.isDigit = false) :
    matchArxivAt (c :: t) = none := by
  rcases t with _ | ⟨b, _ | ⟨d, _ | ⟨e, _ | ⟨f, rest⟩⟩⟩⟩ <;> simp [matchArxivAt, hc]

theorem arxivSearch_append_nodigit : ∀ {pre : List Char},
    (∀ c ∈ pre, c.isDigit = false) → ∀ t, arxivSearch (pre ++ t) = arxivSearch t := by
  intro pre
  induction pre with
  | nil => intro _ t; rfl
  | cons c p ih =>
    intro h t
    have hc : c.isDigit = false := h c (List.mem_cons_self c p)
    have hp : ∀ x ∈ p, x.isDigit = false := fun x hx => h x (List.mem_cons_of_mem c hx)
    rw [List.cons_append, arxivSearch, matchArxivAt_not_digit _ hc]
    exact ih hp t

theorem arxivProcess_fix (s : List Char) :
    arxivProcess (arxivProcess s) = arxivProcess s := by
  rcases hs : arxivSearch s with _ | id
  · simp [arxivProcess, hs]
  · have hfix := arxivSearch_fix hs
    have hpre : ∀ c ∈ absUrlBase, c.isDigit = false := by decide
    have hy : arxivSearch (absUrlBase ++ id) = some id := by
      rw [arxivSearch_append_nodigit hpre id, arxivSearch_self hfix]
    simp [arxivProcess, hs, hy]

theorem applyProcessor_def (s : List Char) (p : URLProcessor) :
    applyProcessor s p = if p.can_process s then p.process s else s := rfl

theorem applyArxiv_idem (s : List Char) :
    applyProcessor (applyProcessor s arxivProcessor) arxivProcessor
      = applyProcessor s arxivProcessor := by
  by_cases hc : arxivProcessor.can_process s = true
  · have h1 : applyProcessor s arxivProcessor = arxivProcessor.process s := by
      rw [applyProcessor_def, if_pos hc]
    rw [h1]
    by_cases hc2 : arxivProcessor.can_process (arxivProcessor.process s) = true
    · rw [applyProcessor_def, if_pos hc2]
      exact arxivProcess_fix s
    · rw [applyProcessor_def, if_neg hc2]
  · have h1 : applyProcessor s arxivProcessor = s := by
      rw [applyProcessor_def, if_neg hc]
    rw [h1, h1]

/-! Claim theorems about the processor chain. -/

/-- Claim C1: the default chain is [Google Scholar redirect unwrapper, arXiv
article-ID normalizer] in that order, the chain feeds the first processor's
output to the second processor's applicability test and transform, and on the
wrapped arXiv PDF link the composition unwraps and then canonicalizes,
producing the canonical abstract URL. -/
theorem chain_composition_spec :
    default_processor_chain = [googleScholarProcessor, arxivProcessor]
    ∧ (∀ u : List Char, chainProcess default_processor_chain u
        = applyProcessor (applyProcessor u googleScholarProcessor) arxivProcessor)
    ∧ process_paper_url
        "https://scholar.google.com/scholar_url?url=https://arxiv.org/pdf/2401.12345.pdf"
        = "https://arxiv.org/abs/2401.12345" :=
  ⟨rfl, fun _ => rfl, by decide⟩

/-- Claim C2, counterexample: `process_paper_url` is not idempotent on every
string — when the unwrapped destination is itself a wrapped redirect URL, the
second application unwraps again. -/
theorem process_paper_url_not_idempotent :
    process_paper_url (process_paper_url
      "https://scholar.google.com/scholar_url?url=https://scholar.google.com/scholar_url?url=https://example.org/a")
    ≠ process_paper_url
      "https://scholar.google.com/scholar_url?url=https://scholar.google.com/scholar_url?url=https://example.org/a" := by
  decide

/-- Claim C2 (amended): whenever the result of `process_paper_url` no longer
contains the redirect marker `scholar.google.com/scholar_url` — in particular
for every URL whose normal form is an unwrapped destination — applying
`process_paper_url` again returns the same URL. -/
theorem process_paper_url_idem_of_unwrapped (u : String)
    (h : containsL (strL "scholar.google.com/scholar_url")
      (process_paper_url u).data = false) :
    process_paper_url (process_paper_url u) = process_paper_url u := by
  show String.mk (chainProcess default_processor_chain (process_paper_url u).data)
      = process_paper_url u
  have hchain : chainProcess default_processor_chain (process_paper_url u).data
      = applyProcessor (applyProcessor (process_paper_url u).data googleScholarProcessor)
          arxivProcessor := rfl
  rw [hchain]
  have hgs : applyProcessor (process_paper_url u).data googleScholarProcessor
      = (process_paper_url u).data := by
    rw [applyProcessor_def, if_neg]
    simp [googleScholarProcessor, gsCanProcess, h]
  rw [hgs]
  have key : applyProcessor (process_paper_url u).data arxivProcessor
      = (process_paper_url u).data := by
    show applyProcessor
        (applyProcessor (applyProcessor u.data googleScholarProcessor) arxivProcessor)
        arxivProcessor
      = applyProcessor (applyProcessor u.data googleScholarProcessor) arxivProcessor
    exact applyArxiv_idem _
  rw [key]

/-- Witness for the amended claim C2 at the wrapped arXiv PDF link. -/
theorem process_paper_url_idem_of_unwrapped_witness :
    containsL (strL "scholar.google.com/scholar_url")
      (process_paper_url
        "https://scholar.google.com/scholar_url?url=https://arxiv.org/pdf/2401.12345.pdf").data
      = false
    ∧ process_paper_url (process_paper_url
        "https://scholar.google.com/scholar_url?url=https://arxiv.org/pdf/2401.12345.pdf")
      = process_paper_url
        "https://scholar.google.com/scholar_url?url=https://arxiv.org/pdf/2401.12345.pdf" :=
  ⟨by decide, process_paper_url_idem_of_unwrapped _ (by decide)⟩

/-- Claim C5: the arXiv identifier (4 digits, a dot, 4–5 digits) is extracted
from anywhere in the URL, a version suffix after it is discarded, and the URL
is rewritten to the canonical abstract-view form. -/
theorem version_suffix_stripped :
    process_paper_url "https://arxiv.org/pdf/2401.12345v2.pdf"
      = "https://arxiv.org/abs/2401.12345"
    ∧ process_paper_url "https://arxiv.org/abs/2401.12345v2"
      = "https://arxiv.org/abs/2401.12345" :=
  ⟨by decide, by decide⟩

/-- Claim C6: when the Google Scholar processor applies but the parsed query
has no `url` parameter, the (total) transform returns the input unchanged. -/
theorem gs_fail_open (url : List Char)
    (_hcan : googleScholarProcessor.can_process url = true)
    (hno : (parse_qsl (urlQuery url)).find? (fun p => p.1 == strL "url") = none) :
    googleScholarProcessor.process url = url := by
  show gsProcess url = url
  simp only [gsProcess, hno]

/-- Witness for claim C6 at a wrapped URL without a `url` parameter. -/
theorem gs_fail_open_witness :
    (googleScholarProcessor.can_process (strL "https://scholar.google.com/scholar_url?x=1") = true
    ∧ (parse_qsl (urlQuery (strL "https://scholar.google.com/scholar_url?x=1"))).find?
        (fun p => p.1 == strL "url") = none)
    ∧ googleScholarProcessor.process (strL "https://scholar.google.com/scholar_url?x=1")
      = strL "https://scholar.google.com/scholar_url?x=1" :=
  ⟨⟨by decide, by decide⟩, gs_fail_open _ (by decide) (by decide)⟩

/-- Claim C7: a URL containing (case-insensitively) neither the redirect
marker nor the arXiv domain marker is returned unchanged by the default
chain. -/
theorem noop_on_unrecognized_domains (u : String)
    (h1 : containsL (strL "scholar.google.com/scholar_url") (lowerL u.data) = false)
    (h2 : containsL (strL "arxiv.org") (lowerL u.data) = false) :
    process_paper_url u = u := by
  have hgs : gsCanProcess u.data = false := by
    rw [gsCanProcess]
    cases hc : containsL (strL "scholar.google.com/scholar_url") u.data
    · rfl
    · exfalso
      have h3 := containsL_map Char.toLower hc
      rw [show (strL "scholar.google.com/scholar_url").map Char.toLower
          = strL "scholar.google.com/scholar_url" from by decide] at h3
      have h1' : containsL (strL "scholar.google.com/scholar_url")
          ((u.data).map Char.toLower) = false := h1
      rw [h1'] at h3
      exact absurd h3 (by decide)
  have hax : arxivCanProcess u.data = false := h2
  show String.mk (applyProcessor (applyProcessor u.data googleScholarProcessor) arxivProcessor) = u
  have e1 : applyProcessor u.data googleScholarProcessor = u.data := by
    rw [applyProcessor_def, if_neg]
    simp [googleScholarProcessor, hgs]
  rw [e1]
  have e2 : applyProcessor u.data arxivProcessor = u.data := by
    rw [applyProcessor_def, if_neg]
    simp [arxivProcessor, hax]
  rw [e2]

/-- Witness for claim C7 at `https://example.com/x`. -/
theorem noop_on_unrecognized_domains_witness :
    (containsL (strL "scholar.google.com/scholar_url")
        (lowerL (strL "https://example.com/x")) = false
    ∧ containsL (strL "arxiv.org") (lowerL (strL "https://example.com/x")) = false)
    ∧ process_paper_url "https://example.com/x" = "https://example.com/x" :=
  ⟨⟨by decide, by decide⟩,
    noop_on_unrecognized_domains "https://example.com/x" (by decide) (by decide)⟩

/-! Claim theorems about the link filter. -/

/-- Claim C4: `should_keep` is exclusion-first and case-insensitive: it
accepts exactly the URLs matching no exclusion pattern and some inclusion
pattern; a URL matching both lists is rejected (exclusion wins), one matching
an inclusion only is accepted, and one matching neither list is rejected. -/
theorem should_keep_classification :
    (∀ url : List Char,
        should_keep url = (!matchesAnyNonPaperPattern url && matchesAnyPaperIndicator url))
    ∧ should_keep (strL "https://scholar.google.com/scholar_url?info=x") = false
    ∧ should_keep (strL "https://arxiv.org/abs/2401.12345") = true
    ∧ should_keep (strL "https://example.com/paper.pdf") = false := by
  refine ⟨fun url => ?_, by decide, by decide, by decide⟩
  simp only [should_keep, matchesAnyNonPaperPattern, matchesAnyPaperIndicator]
  cases h : NON_PAPER_PATTERNS.any fun p => p (lowerL url) <;> simp [h]

/-- Claim C9 (code evidence): the search-result URL
`https://scholar.google.com/scholar?q=scholar_url` contains the
search-result marker, matches no exclusion pattern (the pattern list carries
the misspelled `scholar\.google\.com/schol[?&]`), and is kept by
`should_keep` because the `scholar_url` inclusion pattern matches. -/
theorem scholar_search_url_kept :
    containsL (strL "scholar.google.com/scholar?")
      (lowerL (strL "https://scholar.google.com/scholar?q=scholar_url")) = true
    ∧ matchesAnyNonPaperPattern (strL "https://scholar.google.com/scholar?q=scholar_url") = false
    ∧ should_keep (strL "https://scholar.google.com/scholar?q=scholar_url") = true :=
  ⟨by decide, by decide, by decide⟩

/-- Claim C10: the exclusion patterns `info=`, `update_op=` and `citsig=` are
domain-agnostic — any URL containing one of them (case-insensitively) is
rejected, regardless of host. -/
theorem domain_agnostic_exclusions (url : List Char)
    (h : containsL (strL "info=") (lowerL url) = true
       ∨ containsL (strL "update_op=") (lowerL url) = true
       ∨ containsL (strL "citsig=") (lowerL url) = true) :
    should_keep url = false := by
  have hany : (NON_PAPER_PATTERNS.any fun p => p (lowerL url)) = true := by
    rcases h with h | h | h <;> simp [NON_PAPER_PATTERNS, h]
  simp [should_keep, hany]

/-- Witness for claim C10 at an arXiv abstract URL carrying `info=`. -/
theorem domain_agnostic_exclusions_witness :
    containsL (strL "info=")
      (lowerL (strL "https://arxiv.org/abs/2401.12345?info=1")) = true
    ∧ should_keep (strL "https://arxiv.org/abs/2401.12345?info=1") = false :=
  ⟨by decide, domain_agnostic_exclusions _ (Or.inl (by decide))⟩

/-! Lemmas about list membership checks (`Python: x in seen`). -/

theorem containsC_nil (x : List Char) : ([] : List (List Char)).contains x = false := rfl

theorem containsC_cons (v x : List Char) (seen : List (List Char)) :
    (v :: seen).contains x = ((x == v) || seen.contains x) := by
  cases h : x == v <;> simp [List.contains, List.elem, h]

theorem containsC_append (l1 l2 : List (List Char)) (x : List Char) :
    (l1 ++ l2).contains x = (l1.contains x || l2.contains x) := by
  induction l1 with
  | nil => rw [List.nil_append, containsC_nil, Bool.false_or]
  | cons v t ih =>
    rw [List.cons_append, containsC_cons, containsC_cons, ih, Bool.or_assoc]

/-! Lemmas about first-occurrence deduplication. -/

theorem mem_dedupFirst : ∀ {l : List (List Char)} {x : List Char},
    x ∈ dedupFirst l → x ∈ l := by
  intro l
  induction l using dedupFirst.induct with
  | case1 => intro x h; rw [dedupFirst] at h; exact absurd h (List.not_mem_nil _)
  | case2 y ys ih =>
    intro x h
    rw [dedupFirst] at h
    rcases List.mem_cons.mp h with h | h
    · exact h ▸ List.mem_cons_self y ys
    · exact List.mem_cons_of_mem y (List.mem_filter.mp (ih h)).1

theorem dedupFirst_nodup : ∀ (l : List (List Char)), (dedupFirst l).Nodup := by
  intro l
  induction l using dedupFirst.induct with
  | case1 => rw [dedupFirst]; exact List.nodup_nil
  | case2 y ys ih =>
    rw [dedupFirst]
    refine List.nodup_cons.mpr ⟨fun hmem => ?_, ih⟩
    have h2 := (List.mem_filter.mp (mem_dedupFirst hmem)).2
    simp at h2

/-! The cross-email deduplication loop equals spec-level first-occurrence
deduplication of the normalized link stream. -/

theorem uniqueFold_spec : ∀ (links : List (List Char)) (seen out : List (List Char)),
    (∀ x, seen.contains x = out.contains x) →
    (links.foldl uniqueStep (seen, out)).2
      = out ++ dedupFirst ((links.map (chainProcess default_processor_chain)).filter
          fun v => !seen.contains v) := by
  intro links
  induction links with
  | nil =>
    intro seen out _
    rw [List.foldl_nil, List.map_nil, List.filter_nil, dedupFirst, List.append_nil]
  | cons link ls ih =>
    intro seen out hinv
    rw [List.foldl_cons, List.map_cons, List.filter_cons]
    cases h1 : seen.contains (chainProcess default_processor_chain link)
    case true =>
      have hstep : uniqueStep (seen, out) link = (seen, out) := by
        simp only [uniqueStep, h1]
        rfl
      rw [hstep, ih seen out hinv, if_neg (by simp [h1])]
    case false =>
      have hstep : uniqueStep (seen, out) link
          = (chainProcess default_processor_chain link :: seen,
             out ++ [chainProcess default_processor_chain link]) := by
        simp only [uniqueStep, h1]
        rfl
      rw [hstep, if_pos (by simp [h1])]
      have hinv' : ∀ x,
          (chainProcess default_processor_chain link :: seen).contains x
            = (out ++ [chainProcess default_processor_chain link]).contains x := by
        intro x
        rw [containsC_cons, containsC_append, containsC_cons, containsC_nil,
          Bool.or_false, hinv x, Bool.or_comm]
      rw [ih _ _ hinv', dedupFirst, List.filter_filter]
      have hpred : ∀ w ∈ ls.map (chainProcess default_processor_chain),
          (!(chainProcess default_processor_chain link :: seen).contains w)
            = ((!(w == chainProcess default_processor_chain link)) && !seen.contains w) := by
        intro w _
        rw [containsC_cons, Bool.not_or]
      rw [List.filter_congr hpred, List.append_assoc, List.singleton_append]

theorem foldl_allLinks : ∀ (emails : List Email) (acc : List (List Char) × List (List Char)),
    emails.foldl (fun acc email => email.links.foldl uniqueStep acc) acc
      = (allLinks emails).foldl uniqueStep acc := by
  intro emails
  induction emails with
  | nil => intro acc; rfl
  | cons e es ih =>
    intro acc
    rw [List.foldl_cons, allLinks, List.foldl_append, ih]

/-- Claim C3: `get_unique_links` normalizes every link before the membership
check, iterating emails in list order and links in per-email order, and its
output is the first-occurrence deduplication of the normalized link stream —
hence duplicate-free with first-seen order preserved; on a direct
document-view link and a redirect-wrapped link to the same document it
produces the single canonical abstract URL. -/
theorem get_unique_links_spec :
    (∀ emails : List Email,
        get_unique_links emails
          = dedupFirst ((allLinks emails).map (chainProcess default_processor_chain))
        ∧ (get_unique_links emails).Nodup)
    ∧ get_unique_links
        [⟨[strL "https://arxiv.org/pdf/2401.12345.pdf",
           strL "https://scholar.google.com/scholar_url?url=https://arxiv.org/abs/2401.12345"]⟩]
      = [strL "https://arxiv.org/abs/2401.12345"] := by
  have key : ∀ emails : List Email,
      get_unique_links emails
        = dedupFirst ((allLinks emails).map (chainProcess default_processor_chain)) := by
    intro emails
    rw [get_unique_links, foldl_allLinks]
    have h := uniqueFold_spec (allLinks emails) [] [] (fun x => rfl)
    rw [h, List.nil_append]
    congr 1
    have : ∀ w ∈ (allLinks emails).map (chainProcess default_processor_chain),
        (!(([] : List (List Char)).contains w)) = true := by
      intro w _
      rfl
    rw [List.filter_congr this, List.filter_true]
  refine ⟨fun emails => ⟨key emails, ?_⟩, by decide⟩
  rw [key emails]
  exact dedupFirst_nodup _

/-! Lemmas about URL extraction from free text. -/

theorem takeWhile_all {p : Char → Bool} : ∀ {xs : List Char},
    (∀ x ∈ xs, p x = true) → xs.takeWhile p = xs := by
  intro xs
  induction xs with
  | nil => intro _; rfl
  | cons a t ih =>
    intro h
    rw [List.takeWhile_cons, if_pos (h a (List.mem_cons_self a t)),
      ih fun x hx => h x (List.mem_cons_of_mem a hx)]

theorem takeWhile_append_stop {p : Char → Bool} {y : Char} (hy : p y = false) :
    ∀ {xs : List Char}, (∀ x ∈ xs, p x = true) →
      ∀ ys, (xs ++ y :: ys).takeWhile p = xs := by
  intro xs
  induction xs with
  | nil =>
    intro _ ys
    rw [List.nil_append, List.takeWhile_cons, if_neg (by simp [hy])]
  | cons a t ih =>
    intro h ys
    rw [List.cons_append, List.takeWhile_cons, if_pos (h a (List.mem_cons_self a t)),
      ih (fun x hx => h x (List.mem_cons_of_mem a hx)) ys]

theorem matchUrlAt_full {w : List Char} (t : List Char)
    (hw : isPre (strL "https://") w = true) (hlen : 8 < w.length)
    (hch : ∀ x ∈ w, isUrlStop x = false)
    (ht : t = [] ∨ ∃ y ys, t = y :: ys ∧ isUrlStop y = true) :
    matchUrlAt (w ++ t) = some (w, t) := by
  have hwt : isPre (strL "https://") (w ++ t) = true := isPre_append hw t
  have hsplit : strL "https://" ++ w.drop 8 = w := by
    have h := isPre_eq_append hw
    rwa [show (strL "https://").length = 8 from rfl] at h
  have hdrop : (w ++ t).drop 8 = w.drop 8 ++ t := by
    conv_lhs => rw [← hsplit]
    rw [List.append_assoc, show (8 : Nat) = (strL "https://").length from rfl,
      List.drop_left]
  have hch8 : ∀ x ∈ w.drop 8, (fun c => !isUrlStop c) x = true := by
    intro x hx
    have hxw : x ∈ w := List.drop_subset 8 w hx
    simp [hch x hxw]
  have hne : w.drop 8 ≠ [] := by
    intro hnil
    have := congrArg List.length hnil
    rw [List.length_drop] at this
    simp at this
    omega
  rw [matchUrlAt, if_pos hwt]
  simp only [hdrop]
  rcases ht with rfl | ⟨y, ys, rfl, hy⟩
  · rw [List.append_nil, takeWhile_all hch8,
      if_neg (by simp [List.isEmpty_iff, hne]), List.drop_length, hsplit]
  · rw [takeWhile_append_stop (by simp [hy]) hch8 ys,
      if_neg (by simp [List.isEmpty_iff, hne]), List.drop_left, hsplit]

theorem matchUrlAt_newline (t : List Char) : matchUrlAt ('\n' :: t) = none := by
  rw [matchUrlAt,
    show isPre (strL "https://") ('\n' :: t) = false from rfl,
    show isPre (strL "http://") ('\n' :: t) = false from rfl]
  rfl

theorem findUrlsGo_nil (n : Nat) : findUrlsGo n [] = [] := by cases n <;> rfl

theorem findUrlsGo_match {s m rem : List Char} (n : Nat)
    (h : matchUrlAt s = some (m, rem)) :
    findUrlsGo (n + 1) s = m :: findUrlsGo n rem := by
  cases s with
  | nil =>
    rw [show matchUrlAt ([] : List Char) = none from by decide] at h
    cases h
  | cons a u => simp [findUrlsGo, h]

theorem findUrlsGo_nomatch {a : Char} {s : List Char} (n : Nat)
    (h : matchUrlAt (a :: s) = none) :
    findUrlsGo (n + 1) (a :: s) = findUrlsGo n s := by
  simp [findUrlsGo, h]

/-- Claim C8 (amended): for any two https URLs `w` and `c` made of
URL-pattern characters and not ending in stripped punctuation, where `w` is a
wrapped-redirect link (contains `scholar_url`) matching no exclusion pattern
and `c` is a citation-management link (contains, case-insensitively,
`scholar.google.com/citations`), extracting from the text `w \n c` returns
exactly `[w]`. -/
theorem extract_two_links (w c : List Char)
    (hw8 : isPre (strL "https://") w = true) (hwlen : 8 < w.length)
    (hwch : ∀ x ∈ w, isUrlStop x = false)
    (hwstrip : rstripPunct w = w)
    (hwmark : containsL (strL "scholar_url") w = true)
    (hwexcl : (NON_PAPER_PATTERNS.any fun p => p (lowerL w)) = false)
    (hc8 : isPre (strL "https://") c = true) (hclen : 8 < c.length)
    (hcch : ∀ x ∈ c, isUrlStop x = false)
    (hcstrip : rstripPunct c = c)
    (hccit : containsL (strL "scholar.google.com/citations") (lowerL c) = true) :
    extract_links (w ++ '\n' :: c) = [w] := by
  have hfind : findUrls (w ++ '\n' :: c) = [w, c] := by
    obtain ⟨k, hk⟩ : ∃ k, w.length = k + 9 := ⟨w.length - 9, by omega⟩
    have hm1 : matchUrlAt (w ++ '\n' :: c) = some (w, '\n' :: c) :=
      matchUrlAt_full ('\n' :: c) hw8 hwlen hwch (Or.inr ⟨'\n', c, rfl, by decide⟩)
    have hm2 : matchUrlAt c = some (c, []) := by
      have h := matchUrlAt_full [] hc8 hclen hcch (Or.inl rfl)
      rwa [List.append_nil] at h
    rw [findUrls]
    rw [show (w ++ '\n' :: c).length = (k + 8 + (c.length + 1)) + 1 by
      rw [List.length_append, List.length_cons]; omega]
    rw [findUrlsGo_match _ hm1]
    rw [show k + 8 + (c.length + 1) = (k + 7 + (c.length + 1)) + 1 by omega]
    rw [findUrlsGo_nomatch _ (matchUrlAt_newline c)]
    rw [show k + 7 + (c.length + 1) = (k + 7 + c.length) + 1 by omega]
    rw [findUrlsGo_match _ hm2, findUrlsGo_nil]
  have hne : (c == w) = false := by
    refine beq_eq_false_iff_ne.mpr fun hcw => ?_
    have hcit2 : containsL (strL "scholar.google.com/citations") (lowerL w) = true :=
      hcw ▸ hccit
    have hany : (NON_PAPER_PATTERNS.any fun p => p (lowerL w)) = true := by
      simp [NON_PAPER_PATTERNS, hcit2]
    rw [hwexcl] at hany
    exact Bool.false_ne_true hany
  have hkw : should_keep w = true := by
    simp only [should_keep]
    rw [if_neg (by simp [hwexcl])]
    have hmark2 := containsL_map Char.toLower hwmark
    rw [show (strL "scholar_url").map Char.toLower = strL "scholar_url" from by decide]
      at hmark2
    have hmark3 : containsL (strL "scholar_url") (lowerL w) = true := hmark2
    simp [PAPER_INDICATORS, hmark3]
  have hkc : should_keep c = false := by
    have hany : (NON_PAPER_PATTERNS.any fun p => p (lowerL c)) = true := by
      simp [NON_PAPER_PATTERNS, hccit]
    simp [should_keep, hany]
  have hd : dedupSeen [] [w, c] = [w, c] := by
    have h1 : (([] : List (List Char)).contains w) = false := containsC_nil w
    have h2 : ([w].contains c) = false := by
      rw [containsC_cons, containsC_nil, Bool.or_false, hne]
    rw [dedupSeen, if_neg (by intro hc; rw [h1] at hc; exact Bool.false_ne_true hc),
      dedupSeen, if_neg (by intro hc; rw [h2] at hc; exact Bool.false_ne_true hc)]
    rfl
  rw [extract_links, hfind, List.map_cons, List.map_cons, List.map_nil,
    hwstrip, hcstrip, hd]
  rw [List.filter_cons, if_pos (by simp [defaultFilters, hkw]),
    List.filter_cons, if_neg (by simp [defaultFilters, hkc]), List.filter_nil]

/-- Claim C8, counterexample: a text containing exactly one wrapped-redirect
link (which also carries `info=`) and one citation-management link yields no
URLs at all, not one. -/
theorem extract_paper_links_cex :
    findUrls (strL "https://scholar.google.com/scholar_url?url=https://arxiv.org/abs/2401.12345&info=x https://scholar.google.com/citations?view_op=view_citation")
      = [strL "https://scholar.google.com/scholar_url?url=https://arxiv.org/abs/2401.12345&info=x",
         strL "https://scholar.google.com/citations?view_op=view_citation"]
    ∧ containsL (strL "scholar_url")
        (strL "https://scholar.google.com/scholar_url?url=https://arxiv.org/abs/2401.12345&info=x") = true
    ∧ containsL (strL "scholar_url")
        (strL "https://scholar.google.com/citations?view_op=view_citation") = false
    ∧ containsL (strL "scholar.google.com/citations")
        (strL "https://scholar.google.com/citations?view_op=view_citation") = true
    ∧ containsL (strL "scholar.google.com/citations")
        (strL "https://scholar.google.com/scholar_url?url=https://arxiv.org/abs/2401.12345&info=x") = false
    ∧ extract_paper_links
        "https://scholar.google.com/scholar_url?url=https://arxiv.org/abs/2401.12345&info=x https://scholar.google.com/citations?view_op=view_citation"
      = [] :=
  ⟨by decide, by decide, by decide, by decide, by decide, by decide⟩

/-- Witness for the amended claim C8 at the real-world email text from the
repository's tests. -/
theorem extract_two_links_witness :
    extract_links
      (strL "https://scholar.google.com/scholar_url?url=https://arxiv.org/pdf/2602.09302&hl=zh-CN&sa=X"
        ++ '\n' :: strL "https://scholar.google.com/citations?hl=zh-CN&update_op=email_library_add")
      = [strL "https://scholar.google.com/scholar_url?url=https://arxiv.org/pdf/2602.09302&hl=zh-CN&sa=X"] :=
  extract_two_links _ _ (by decide) (by decide) (by decide) (by decide) (by decide)
    (by decide) (by decide) (by decide) (by decide) (by decide) (by decide)

end GmailScholar
